import Mathlib

/-!
Verification of the placeholder pipeline of `app.py` (document-generation web app).

The pure core of the program is shallowly embedded here:

* `sanitize_placeholder`   — `re.sub(r'\W+', '_', s).strip('_')`  (app.py lines 96–101)
* `extract_placeholders_from_xml` — `re.findall(r'{{(.*?)}}', xml, re.DOTALL)` followed by
  tag stripping `re.sub(r'<[^>]+>', '', m)`, `.strip()`, dedup    (app.py lines 77–94)
* `sanitize_xml_content`   — the `re.sub(r'{{(.*?)}}', replacement, xml, flags=re.DOTALL)`
  payload rewrite inside `sanitize_template_xml`                  (app.py lines 123–131)
* `get_value_case_insensitive`                                    (app.py lines 149–154)
* context building of `generate_document`                         (app.py lines 207–229)
* the control-flow / cleanup skeleton of `sanitize_template_xml`  (app.py lines 111–147)

Python character classes are modelled over their ASCII fragments (`\w`, `str.lower`,
`str.strip`); the claims under study are insensitive to the Unicode extension.
-/

/-- ASCII model of the whitespace set stripped by Python `str.strip()`. -/
def pyIsSpace (c : Char) : Bool :=
  c == ' ' || c == '\t' || c == '\n' || c == '\r' || c == '\x0b' || c == '\x0c'

/-- ASCII model of Python regex `\w`: letters, digits and underscore. -/
def isWordChar (c : Char) : Bool :=
  c.isAlphanum || c == '_'

/-- Python `str.strip()` on a character list: drop whitespace at both ends. -/
def pyStrip (l : List Char) : List Char :=
  ((l.dropWhile pyIsSpace).reverse.dropWhile pyIsSpace).reverse

/-- Python `str.strip()` at `String` level. -/
def pyStripStr (s : String) : String :=
  String.mk (pyStrip s.data)

/-- ASCII model of Python `str.lower()`. -/
def pyLowerStr (s : String) : String :=
  String.mk (s.data.map Char.toLower)

/-- `re.sub(r'\W+', '_', ·)` : replace every maximal run of non-word characters by a
single underscore.  The flag records whether we are inside such a run (the underscore
for it has already been emitted). -/
def subNonWordAux : Bool → List Char → List Char
  | _, [] => []
  | inRun, c :: rest =>
    if isWordChar c then c :: subNonWordAux false rest
    else if inRun then subNonWordAux true rest
    else '_' :: subNonWordAux true rest

/-- Python `str.strip('_')`: drop underscores at both ends. -/
def stripUnderscores (l : List Char) : List Char :=
  ((l.dropWhile (fun c => c == '_')).reverse.dropWhile (fun c => c == '_')).reverse

/-- `sanitize_placeholder` (app.py lines 96–101):
`re.sub(r'\W+', '_', placeholder).strip('_')`. -/
def sanitize_placeholder (s : String) : String :=
  String.mk (stripUnderscores (subNonWordAux false s.data))

/-- `get_value_case_insensitive` (app.py lines 149–154), for dictionaries whose values
are strings.  The Python dict is modelled as an association list in insertion order,
which is the order `dict.items()` iterates. -/
def get_value_case_insensitive : List (String × String) → String → String → String
  | [], _, dflt => dflt
  | (k, v) :: rest, target, dflt =>
    if pyLowerStr (pyStripStr k) = pyLowerStr (pyStripStr target) then
      (if pyStripStr v = "" then dflt else pyStripStr v)
    else get_value_case_insensitive rest target dflt

/-- `get_value_case_insensitive` as called from `generate_document`, where the
dictionary values came from `request.form.get(...)` and may be Python `None`
(modelled `Option.none`).  On a matching key with value `None` the source executes
`None.strip()` which raises `AttributeError`; that exception is the `Except.error`
result. -/
def get_value_case_insensitive_opt :
    List (String × Option String) → String → String → Except Unit String
  | [], _, dflt => .ok dflt
  | (k, v) :: rest, target, dflt =>
    if pyLowerStr (pyStripStr k) = pyLowerStr (pyStripStr target) then
      match v with
      | none => .error ()
      | some s => .ok (if pyStripStr s = "" then dflt else pyStripStr s)
    else get_value_case_insensitive_opt rest target dflt

/-- Output filename construction of `generate_document` (app.py lines 241–245):
`f"Proposal_{client_name}_{proposal_date}" + ".docx"` over the raw values. -/
def derive_output_filename (raw_values : List (String × String)) : String :=
  let client_name := get_value_case_insensitive raw_values "Client Company Name" "UnknownClient"
  let proposal_date := get_value_case_insensitive raw_values "Proposal date" "UnknownDate"
  "Proposal_" ++ client_name ++ "_" ++ proposal_date ++ ".docx"

/-- Modelled from the spec (§4.6): locate the first key of `dict` that matches
`target` case-insensitively after trimming; if its value is non-empty after trimming
use that trimmed value, otherwise the default. -/
def spec_find_value (dict : List (String × String)) (target dflt : String) : String :=
  match dict.find? (fun p => pyLowerStr (pyStripStr p.1) = pyLowerStr (pyStripStr target)) with
  | some p => if pyStripStr p.2 = "" then dflt else pyStripStr p.2
  | none => dflt

/-- Python dict assignment `d[k] = v`: overwrite in place if the key is present
(keeping its position), otherwise append. -/
def dictInsert {α : Type} : List (String × α) → String → α → List (String × α)
  | [], k, v => [(k, v)]
  | (k0, v0) :: rest, k, v =>
    if k0 = k then (k0, v) :: rest else (k0, v0) :: dictInsert rest k v

/-- Python `k in d` / `d.get(k)` on the association-list model of a dict. -/
def dictLookup {α : Type} : List (String × α) → String → Option α
  | [], _ => none
  | (k0, v0) :: rest, k => if k0 = k then some v0 else dictLookup rest k

/-- Flask `request.form.get(key)`: first value for the key, or `None`. -/
def formGet (form : List (String × String)) (key : String) : Option String :=
  (form.find? (fun p => p.1 = key)).map (fun p => p.2)

/-- Lexicographic code-point comparison of character lists, the order Python uses
to sort strings. -/
def charListLtb : List Char → List Char → Bool
  | [], [] => false
  | [], _ :: _ => true
  | _ :: _, [] => false
  | a :: as, b :: bs =>
    if a.val.toNat < b.val.toNat then true
    else if b.val.toNat < a.val.toNat then false
    else charListLtb as bs

/-- Code-point lexicographic `<` on strings. -/
def strLtb (s t : String) : Bool :=
  charListLtb s.data t.data

/-- Insert into a sorted list of strings (code-point lexicographic order). -/
def insertSorted (s : String) : List String → List String
  | [] => [s]
  | t :: rest => if strLtb t s then t :: insertSorted s rest else s :: t :: rest

/-- Python `list.sort()` on a list of (distinct) strings, modelled as insertion
sort; for the deduplicated placeholder lists of the program the result is the
unique sorted arrangement, independently of the algorithm. -/
def sortStrings : List String → List String
  | [] => []
  | s :: rest => insertSorted s (sortStrings rest)

/-- The exclusion list of app.py lines 188–189 and 214. -/
def EXCLUDED_PLACEHOLDERS : List String :=
  ["Salesperson_Name", "Salesperson_Email", "Salesperson_Phone"]

/-- `select_template` (app.py lines 186–189): sort the extracted placeholders, then
drop the excluded ones from the manual-entry list. -/
def manual_entry_list (placeholders : List String) : List String :=
  (sortStrings placeholders).filter (fun ph => ph ∉ EXCLUDED_PLACEHOLDERS)

/-- One iteration of the placeholder loop of `generate_document` (app.py lines
213–220), threading the `mapping`, `raw_values` and `context` dicts. -/
def build_step (form : List (String × String))
    (acc : List (String × String) × List (String × Option String) × List (String × Option String))
    (ph : String) :
    List (String × String) × List (String × Option String) × List (String × Option String) :=
  if ph ∈ EXCLUDED_PLACEHOLDERS then acc
  else
    let key := sanitize_placeholder ph
    let value := formGet form key
    (dictInsert acc.1 ph key, dictInsert acc.2.1 ph value, dictInsert acc.2.2 key value)

/-- The `mapping` / `raw_values` / `context` dictionaries built by
`generate_document` (app.py lines 207–220) from the extracted placeholder list and
the submitted form. -/
def build_request_data (all_placeholders : List String) (form : List (String × String)) :
    List (String × String) × List (String × Option String) × List (String × Option String) :=
  (sortStrings all_placeholders).foldl (build_step form) ([], [], [])

/-- A row of salespersons.xlsx as read by `get_salespeople`. -/
structure Salesperson where
  name : String
  email : String
  phone : String
  deriving DecidableEq, Repr

/-- app.py line 225: first salesperson whose stripped, lowered name equals the
stripped, lowered dropdown selection. -/
def find_salesperson (salespeople : List Salesperson) (selected : String) : Option Salesperson :=
  salespeople.find? (fun s => pyLowerStr (pyStripStr s.name) = pyLowerStr (pyStripStr selected))

/-- app.py lines 221–229: if a (truthy) salesperson selection matches a record,
assign its fields into the context under the literal keys `Salesperson_Name`,
`Salesperson_Email`, `Salesperson_Phone`; otherwise leave the context unchanged. -/
def inject_salesperson (context : List (String × Option String))
    (selected : Option String) (salespeople : List Salesperson) :
    List (String × Option String) :=
  match selected with
  | none => context
  | some sel =>
    if sel = "" then context
    else
      match find_salesperson salespeople sel with
      | none => context
      | some sp =>
        dictInsert
          (dictInsert
            (dictInsert context "Salesperson_Name" (some sp.name))
            "Salesperson_Email" (some sp.email))
          "Salesperson_Phone" (some sp.phone)

/-- Python-level result of `sanitize_template_xml`: an exception escaped the
function, the function returned `None`, or it returned the new template path. -/
inductive PyRunResult
  | raised
  | returnedNone
  | returnedPath
  deriving DecidableEq, Repr

/-- Outcome of one run of `sanitize_template_xml`: its Python-level result and
whether `shutil.rmtree(temp_dir)` ran on the scratch directory. -/
structure RewriteOutcome where
  result : PyRunResult
  scratchRemoved : Bool
  deriving DecidableEq, Repr

/-- Fallible steps of `sanitize_template_xml` (app.py lines 111–147): opening and
extracting the original archive (lines 113–114), reading `word/document.xml`
(lines 116–118), writing it back (lines 132–134), repacking the new archive
(lines 140–145). -/
structure RewriterEnv where
  openArchiveOk : Bool
  readDocOk : Bool
  writeDocOk : Bool
  repackOk : Bool
  deriving DecidableEq, Repr

/-- Control-flow skeleton of `sanitize_template_xml` (app.py lines 111–147).
`tempfile.mkdtemp()` (line 112) has created the scratch directory before any
fallible step runs.  Only the read failure (line 121) and the write failure
(line 137) execute `shutil.rmtree`; an exception while opening/extracting the
original archive or while repacking propagates before line 146 is reached. -/
def sanitize_template_run (e : RewriterEnv) : RewriteOutcome :=
  if !e.openArchiveOk then { result := .raised, scratchRemoved := false }
  else if !e.readDocOk then { result := .returnedNone, scratchRemoved := true }
  else if !e.writeDocOk then { result := .returnedNone, scratchRemoved := true }
  else if !e.repackOk then { result := .raised, scratchRemoved := false }
  else { result := .returnedPath, scratchRemoved := true }

/-- The zip archive behind a DOCX path, as `extract_placeholders_from_xml` sees it:
`none` models an unreadable archive (`zipfile.ZipFile` raising), `some members` a
readable archive with named members. -/
def readDocumentXml (archive : Option (List (String × String))) : Option String :=
  match archive with
  | none => none
  | some members => (members.find? (fun p => p.1 = "word/document.xml")).map (fun p => p.2)

/-- Leftmost split at the closing delimiter: `splitClose l = some (i, a)` means
`l = i ++ '}' :: '}' :: a` with that occurrence of two adjacent closing braces
leftmost, exactly how the lazy `(.*?)}}` of the scan completes a match. -/
def splitClose : List Char → Option (List Char × List Char)
  | [] => none
  | c :: rest =>
    if c = '\x7d' ∧ rest.head? = some '\x7d' then some ([], rest.tail)
    else (splitClose rest).map (fun p => (c :: p.1, p.2))

/-- Leftmost split at a closing angle bracket, for the `[^>]+>` part of the
tag-stripping regex. -/
def splitGt : List Char → Option (List Char × List Char)
  | [] => none
  | c :: rest =>
    if c = '>' then some ([], rest)
    else (splitGt rest).map (fun p => (c :: p.1, p.2))

theorem splitClose_length :
    ∀ l i a, splitClose l = some (i, a) → l.length = i.length + a.length + 2 := by
  intro l
  induction l with
  | nil => intro i a h; simp [splitClose] at h
  | cons c rest ih =>
    intro i a h
    by_cases hc : c = '\x7d' ∧ rest.head? = some '\x7d'
    · rw [splitClose, if_pos hc] at h
      obtain ⟨rfl, rfl⟩ := Prod.mk.injEq .. ▸ Option.some.injEq .. ▸ h
      obtain ⟨c2, rest2, rfl⟩ : ∃ c2 rest2, rest = c2 :: rest2 := by
        cases rest with
        | nil => simp at hc
        | cons x xs => exact ⟨x, xs, rfl⟩
      simp
    · rw [splitClose, if_neg hc] at h
      cases hsc : splitClose rest with
      | none => rw [hsc] at h; simp at h
      | some p =>
        obtain ⟨i', a'⟩ := p
        rw [hsc] at h
        simp at h
        obtain ⟨h1, h2⟩ := h
        have := ih i' a' hsc
        subst h2
        rw [← h1]
        simp only [List.length_cons] at this ⊢
        omega

theorem splitGt_length :
    ∀ l i a, splitGt l = some (i, a) → l.length = i.length + a.length + 1 := by
  intro l
  induction l with
  | nil => intro i a h; simp [splitGt] at h
  | cons c rest ih =>
    intro i a h
    by_cases hc : c = '>'
    · rw [splitGt, if_pos hc] at h
      simp only [Option.some.injEq, Prod.mk.injEq] at h
      obtain ⟨rfl, rfl⟩ := h
      simp
    · rw [splitGt, if_neg hc] at h
      cases hsc : splitGt rest with
      | none => rw [hsc] at h; simp at h
      | some p =>
        obtain ⟨i', a'⟩ := p
        rw [hsc] at h
        simp at h
        obtain ⟨h1, h2⟩ := h
        have := ih i' a' hsc
        subst h2
        rw [← h1]
        simp only [List.length_cons] at this ⊢
        omega

/-- `re.sub(r'<[^>]+>', '', ·)`: remove every maximal-from-the-left tag span.  At a
`<`, the engine matches up to the first following `>` provided at least one
character lies between (`[^>]+` needs one), else it keeps the `<` and moves on. -/
def stripTags : List Char → List Char
  | [] => []
  | c :: rest =>
    if c = '<' then
      match h : splitGt rest with
      | some p => if p.1 = [] then c :: stripTags rest else stripTags p.2
      | none => c :: stripTags rest
    else c :: stripTags rest
termination_by l => l.length
decreasing_by
  all_goals try simp only [List.length_cons]
  all_goals first
    | omega
    | (have hx := splitGt_length rest p.1 p.2 (by simpa using h); omega)

/-- Cleaning of a raw match: strip embedded tags, then trim whitespace
(app.py line 91 and line 126). -/
def cleanToken (l : List Char) : List Char :=
  pyStrip (stripTags l)

/-- `re.findall(r'{{(.*?)}}', ·, re.DOTALL)`: left-to-right scan; at two adjacent
opening braces the lazy inner group runs to the leftmost close `}}`; if no close
follows, neither this nor any later position can match, so the scan ends. -/
def findRaw : List Char → List (List Char)
  | [] => []
  | [_] => []
  | c1 :: c2 :: rest =>
    if c1 = '\x7b' ∧ c2 = '\x7b' then
      match h : splitClose rest with
      | some p => p.1 :: findRaw p.2
      | none => []
    else findRaw (c2 :: rest)
termination_by l => l.length
decreasing_by
  all_goals try simp only [List.length_cons]
  all_goals first
    | omega
    | (have hx := splitClose_length rest p.1 p.2 (by simpa using h); omega)

/-- Python `cleaned in mapping` / `mapping[cleaned]` over the character-list view
of the mapping dict. -/
def lookupMapping : List (List Char × List Char) → List Char → Option (List Char)
  | [], _ => none
  | (k, v) :: rest, key => if k = key then some v else lookupMapping rest key

/-- `re.sub(r'{{(.*?)}}', replacement, ·, flags=re.DOTALL)` with the `replacement`
closure of app.py lines 123–130: at each match, clean the inner text exactly as the
extractor does; if it is a mapping key emit `{{mapped}}`, else emit the original
match (`match.group(0)`) unchanged.  Text outside matches is copied verbatim. -/
def rewriteChars (m : List (List Char × List Char)) : List Char → List Char
  | [] => []
  | [c] => [c]
  | c1 :: c2 :: rest =>
    if c1 = '\x7b' ∧ c2 = '\x7b' then
      match h : splitClose rest with
      | some p =>
        match lookupMapping m (cleanToken p.1) with
        | some v => '\x7b' :: '\x7b' :: (v ++ '\x7d' :: '\x7d' :: rewriteChars m p.2)
        | none => '\x7b' :: '\x7b' :: (p.1 ++ '\x7d' :: '\x7d' :: rewriteChars m p.2)
      | none => c1 :: c2 :: rest
    else c1 :: rewriteChars m (c2 :: rest)
termination_by l => l.length
decreasing_by
  all_goals try simp only [List.length_cons]
  all_goals first
    | omega
    | (have hx := splitClose_length rest p.1 p.2 (by simpa using h); omega)

/-- `extract_placeholders_from_xml` (app.py lines 88–94) on the decoded payload:
find all lazy `{{...}}` inners, clean each, keep the non-empty ones, deduplicate.
The Python function returns `list(set)` in unspecified order; the claims compare
the result as a set. -/
def extract_placeholders_from_xml (xml : String) : List String :=
  ((((findRaw xml.data).map cleanToken).filter (fun l => l ≠ [])).map
    (fun l => String.mk l)).dedup

/-- `extract_placeholders_from_xml` including its archive boundary (app.py lines
82–87): an unreadable archive or a missing `word/document.xml` member takes the
`except` branch and returns the empty list. -/
def extract_placeholders_from_docx (archive : Option (List (String × String))) : List String :=
  match readDocumentXml archive with
  | none => []
  | some xml => extract_placeholders_from_xml xml

/-- Payload rewrite of `sanitize_template_xml` (app.py line 131) at `String`
level, with the mapping dict as an association list. -/
def sanitize_xml_content (mapping : List (String × String)) (xml : String) : String :=
  String.mk (rewriteChars (mapping.map (fun p => (p.1.data, p.2.data))) xml.data)

/-- Interleaving of literal segments and placeholder occurrences:
`renderSegsL t0 [(i1, t1), ..., (in, tn)]` is
`t0 ++ "{{" ++ i1 ++ "}}" ++ t1 ++ ... ++ "{{" ++ in ++ "}}" ++ tn`. -/
def renderSegsL : List Char → List (List Char × List Char) → List Char
  | t0, [] => t0
  | t0, (i, t) :: rest => t0 ++ '\x7b' :: '\x7b' :: (i ++ '\x7d' :: '\x7d' :: renderSegsL t rest)

/-- String-level interleaving: a payload whose `{{`/`}}` pairs are balanced with no
nested braces, given by its literal segments and occurrence inners. -/
def renderSegs (t0 : String) (ps : List (String × String)) : String :=
  String.mk (renderSegsL t0.data (ps.map (fun p => (p.1.data, p.2.data))))

/-- Check that a string contains no brace character at all (the "balanced with no
nested braces" side condition for the literal segments and inners). -/
def braceFree (s : String) : Bool :=
  s.data.all (fun c => !(c == '\x7b') && !(c == '\x7d'))

/-- Check that a string consists of word characters only (the shape of a
`SanitizedKey`). -/
def wordOnly (s : String) : Bool :=
  s.data.all isWordChar

/-- Cleaning of an inner token at `String` level (tag stripping plus trimming). -/
def cleanStr (s : String) : String :=
  String.mk (cleanToken s.data)

theorem subNonWordAux_word (l : List Char) :
    ∀ (f : Bool), ∀ c ∈ subNonWordAux f l, isWordChar c = true := by
  induction l with
  | nil => intro f c hc; simp [subNonWordAux] at hc
  | cons a rest ih =>
    intro f c hc
    by_cases ha : isWordChar a
    · simp only [subNonWordAux, if_pos ha, List.mem_cons] at hc
      rcases hc with rfl | hc
      · exact ha
      · exact ih false c hc
    · simp only [subNonWordAux, if_neg ha] at hc
      cases f with
      | true => exact ih true c hc
      | false =>
        simp only [Bool.false_eq_true, if_false, List.mem_cons] at hc
        rcases hc with rfl | hc
        · decide
        · exact ih true c hc

theorem subNonWordAux_of_word (l : List Char) (h : ∀ c ∈ l, isWordChar c = true) :
    subNonWordAux false l = l := by
  induction l with
  | nil => rfl
  | cons a rest ih =>
    have ha : isWordChar a = true := h a (List.mem_cons_self ..)
    simp only [subNonWordAux, if_pos ha]
    rw [ih (fun c hc => h c (List.mem_cons_of_mem _ hc))]

theorem mem_subNonWordAux_of_alnum (l : List Char) :
    ∀ (f : Bool) (c : Char), c ∈ l → c.isAlphanum = true → c ∈ subNonWordAux f l := by
  induction l with
  | nil => intro f c hc; simp at hc
  | cons a rest ih =>
    intro f c hc halnum
    rcases List.mem_cons.mp hc with rfl | hc
    · have ha : isWordChar c = true := by simp [isWordChar, halnum]
      simp only [subNonWordAux, if_pos ha]
      exact List.mem_cons_self ..
    · by_cases ha : isWordChar a
      · simp only [subNonWordAux, if_pos ha]
        exact List.mem_cons_of_mem _ (ih false c hc halnum)
      · simp only [subNonWordAux, if_neg ha]
        cases f with
        | true => exact ih true c hc halnum
        | false =>
          simp only [Bool.false_eq_true, if_false]
          exact List.mem_cons_of_mem _ (ih true c hc halnum)

theorem dropWhile_head?_false {p : Char → Bool} :
    ∀ {l : List Char} {c : Char}, (l.dropWhile p).head? = some c → p c = false := by
  intro l
  induction l with
  | nil => intro c h; simp [List.dropWhile] at h
  | cons a rest ih =>
    intro c h
    by_cases ha : p a
    · rw [List.dropWhile_cons_of_pos ha] at h
      exact ih h
    · rw [List.dropWhile_cons_of_neg ha] at h
      simp only [List.head?_cons, Option.some.injEq] at h
      subst h
      exact Bool.not_eq_true _ ▸ (by simpa using ha)

theorem mem_dropWhile_of_false {p : Char → Bool} {c : Char} (hc : p c = false) :
    ∀ {l : List Char}, c ∈ l → c ∈ l.dropWhile p := by
  intro l
  induction l with
  | nil => intro h; simp at h
  | cons a rest ih =>
    intro h
    by_cases ha : p a
    · rw [List.dropWhile_cons_of_pos ha]
      rcases List.mem_cons.mp h with rfl | h
      · rw [ha] at hc; simp at hc
      · exact ih h
    · rw [List.dropWhile_cons_of_neg ha]
      exact h

theorem dropWhile_getLast? {p : Char → Bool} :
    ∀ {l : List Char}, l.dropWhile p ≠ [] → (l.dropWhile p).getLast? = l.getLast? := by
  intro l
  induction l with
  | nil => intro h; simp [List.dropWhile] at h
  | cons a rest ih =>
    intro h
    by_cases ha : p a
    · rw [List.dropWhile_cons_of_pos ha] at h ⊢
      rw [ih h]
      cases rest with
      | nil => simp [List.dropWhile] at h
      | cons b t => simp [List.getLast?_cons_cons]
    · rw [List.dropWhile_cons_of_neg ha]

theorem dropWhile_eq_self_of_head {p : Char → Bool} :
    ∀ {l : List Char}, (∀ c, l.head? = some c → p c = false) → l.dropWhile p = l := by
  intro l h
  cases l with
  | nil => rfl
  | cons a rest =>
    have := h a rfl
    rw [List.dropWhile_cons_of_neg (by simp [this])]

theorem stripUnderscores_head? {l : List Char} {c : Char}
    (h : (stripUnderscores l).head? = some c) : c ≠ '_' := by
  unfold stripUnderscores at h
  rw [List.head?_reverse] at h
  set y := (l.dropWhile (fun c => c == '_')).reverse with hy
  have hne : y.dropWhile (fun c => c == '_') ≠ [] := by
    intro hnil
    rw [hnil] at h
    simp at h
  rw [dropWhile_getLast? hne, hy, List.getLast?_reverse] at h
  have := dropWhile_head?_false h
  simpa using this

theorem stripUnderscores_getLast? {l : List Char} {c : Char}
    (h : (stripUnderscores l).getLast? = some c) : c ≠ '_' := by
  unfold stripUnderscores at h
  rw [List.getLast?_reverse] at h
  have := dropWhile_head?_false h
  simpa using this

theorem stripUnderscores_subset {l : List Char} :
    ∀ c ∈ stripUnderscores l, c ∈ l := by
  intro c hc
  unfold stripUnderscores at hc
  rw [List.mem_reverse] at hc
  have h1 : c ∈ (l.dropWhile (fun c => c == '_')).reverse :=
    List.Sublist.mem hc (List.dropWhile_sublist _)
  rw [List.mem_reverse] at h1
  exact List.Sublist.mem h1 (List.dropWhile_sublist _)

theorem mem_stripUnderscores_of_ne {c : Char} (hne : c ≠ '_') {l : List Char}
    (h : c ∈ l) : c ∈ stripUnderscores l := by
  unfold stripUnderscores
  rw [List.mem_reverse]
  apply mem_dropWhile_of_false (by simpa using hne)
  rw [List.mem_reverse]
  exact mem_dropWhile_of_false (by simpa using hne) h

theorem stripUnderscores_idem (l : List Char) :
    stripUnderscores (stripUnderscores l) = stripUnderscores l := by
  have h1 : (stripUnderscores l).dropWhile (fun c => c == '_') = stripUnderscores l := by
    apply dropWhile_eq_self_of_head
    intro c hc
    simpa using stripUnderscores_head? hc
  have h2 : (stripUnderscores l).reverse.dropWhile (fun c => c == '_')
      = (stripUnderscores l).reverse := by
    apply dropWhile_eq_self_of_head
    intro c hc
    rw [List.head?_reverse] at hc
    simpa using stripUnderscores_getLast? hc
  show ((((stripUnderscores l).dropWhile _).reverse.dropWhile _)).reverse = _
  rw [h1, h2, List.reverse_reverse]

/-- Claim C3: the identifier sanitizer `sanitize_placeholder` is a deterministic pure
function (it is a Lean function of its argument alone) and is idempotent: for every
string `s`, sanitizing an already-sanitized string returns it unchanged. -/
theorem C3_sanitize_idempotent (s : String) :
    sanitize_placeholder (sanitize_placeholder s) = sanitize_placeholder s := by
  show String.mk (stripUnderscores (subNonWordAux false
      (stripUnderscores (subNonWordAux false s.data)))) = _
  have hword : ∀ c ∈ stripUnderscores (subNonWordAux false s.data), isWordChar c = true :=
    fun c hc => subNonWordAux_word s.data false c (stripUnderscores_subset c hc)
  rw [subNonWordAux_of_word _ hword, stripUnderscores_idem]
  rfl

/-- Claim C4: for every input string the sanitizer output neither starts nor ends
with an underscore, and for every input containing at least one alphanumeric
character the output is non-empty. -/
theorem C4_sanitize_ends_and_nonempty (s : String) :
    ((sanitize_placeholder s).data.head? ≠ some '_' ∧
      (sanitize_placeholder s).data.getLast? ≠ some '_') ∧
    ((∃ c ∈ s.data, c.isAlphanum = true) → sanitize_placeholder s ≠ "") := by
  refine ⟨⟨fun h => ?_, fun h => ?_⟩, fun h => ?_⟩
  · exact stripUnderscores_head? h rfl
  · exact stripUnderscores_getLast? h rfl
  · obtain ⟨c, hc, halnum⟩ := h
    have hmem : c ∈ subNonWordAux false s.data :=
      mem_subNonWordAux_of_alnum s.data false c hc halnum
    have hneq : c ≠ '_' := by
      intro hcu
      rw [hcu] at halnum
      simp [Char.isAlphanum, Char.isAlpha, Char.isUpper, Char.isLower, Char.isDigit] at halnum
    have hmem2 : c ∈ stripUnderscores (subNonWordAux false s.data) :=
      mem_stripUnderscores_of_ne hneq hmem
    intro hempty
    have : stripUnderscores (subNonWordAux false s.data) = [] :=
      congrArg String.data hempty
    rw [this] at hmem2
    simp at hmem2

/-- Witness for C4 at the concrete input `" -a b- "`, which contains the
alphanumeric characters `a` and `b`. -/
theorem C4_sanitize_ends_and_nonempty_witness :
    (∃ c ∈ (" -a b- " : String).data, c.isAlphanum = true) ∧
      sanitize_placeholder " -a b- " ≠ "" :=
  ⟨by decide, (C4_sanitize_ends_and_nonempty " -a b- ").2 (by decide)⟩

/-- Claim C5: the filename deriver locates "Client Company Name" and "Proposal date"
in the raw values by case-insensitive, whitespace-trimmed key comparison (first
matching key decides; its trimmed value is used when non-empty after trimming,
else the default "UnknownClient" / "UnknownDate"), the name is exactly
`Proposal_<client>_<date>.docx`, and on raw values holding only
`"client company name" -> "Acme"` the result is `Proposal_Acme_UnknownDate.docx`. -/
theorem C5_filename_derivation :
    (∀ (dict : List (String × String)) (target dflt : String),
        get_value_case_insensitive dict target dflt = spec_find_value dict target dflt) ∧
    (∀ raw_values : List (String × String),
        derive_output_filename raw_values =
          "Proposal_" ++
            get_value_case_insensitive raw_values "Client Company Name" "UnknownClient" ++
            "_" ++ get_value_case_insensitive raw_values "Proposal date" "UnknownDate" ++
            ".docx") ∧
    derive_output_filename [("client company name", "Acme")] =
      "Proposal_Acme_UnknownDate.docx" := by
  refine ⟨?_, fun raw_values => rfl, by decide⟩
  intro dict target dflt
  induction dict with
  | nil => rfl
  | cons p rest ih =>
    obtain ⟨k, v⟩ := p
    by_cases h : pyLowerStr (pyStripStr k) = pyLowerStr (pyStripStr target)
    · simp [get_value_case_insensitive, spec_find_value, List.find?_cons, h]
    · simp only [get_value_case_insensitive, if_neg h, ih, spec_find_value]
      rw [List.find?_cons_of_neg _ (by simpa using h)]

/-- Claim C10: `get_value_case_insensitive` scans the dictionary in insertion order
and decides on the first key matching case-insensitively after trimming, returning
that value trimmed, or the default when that first matching value trims to empty —
even when a later key also matches with a non-empty value. -/
theorem C10_first_match_decides :
    (∀ (pre : List (String × String)) (k v : String) (post : List (String × String))
        (target dflt : String),
        (∀ p ∈ pre, pyLowerStr (pyStripStr p.1) ≠ pyLowerStr (pyStripStr target)) →
        pyLowerStr (pyStripStr k) = pyLowerStr (pyStripStr target) →
        get_value_case_insensitive (pre ++ (k, v) :: post) target dflt =
          (if pyStripStr v = "" then dflt else pyStripStr v)) ∧
    (∀ (k1 v1 k2 v2 target dflt : String),
        pyLowerStr (pyStripStr k1) = pyLowerStr (pyStripStr target) →
        pyStripStr v1 = "" →
        get_value_case_insensitive [(k1, v1), (k2, v2)] target dflt = dflt) := by
  constructor
  · intro pre k v post target dflt hpre hk
    induction pre with
    | nil => simp [get_value_case_insensitive, if_pos hk]
    | cons q rest ih =>
      obtain ⟨qk, qv⟩ := q
      have hq : pyLowerStr (pyStripStr qk) ≠ pyLowerStr (pyStripStr target) :=
        hpre (qk, qv) (List.mem_cons_self ..)
      simp only [List.cons_append, get_value_case_insensitive, if_neg hq]
      exact ih (fun p hp => hpre p (List.mem_cons_of_mem _ hp))
  · intro k1 v1 k2 v2 target dflt hk hv
    simp [get_value_case_insensitive, if_pos hk, hv]

/-- Witness for C10: the first key `" X "` matches target `"x"` case-insensitively
after trimming but its value trims to empty, so the default is returned although
the later key `"x"` matches with the non-empty value `"Acme"`. -/
theorem C10_first_match_decides_witness :
    pyLowerStr (pyStripStr " X ") = pyLowerStr (pyStripStr "x") ∧
    pyStripStr "  " = "" ∧
    get_value_case_insensitive [(" X ", "  "), ("x", "Acme")] "x" "D" = "D" :=
  ⟨by decide, by decide,
    C10_first_match_decides.2 " X " "  " "x" "Acme" "x" "D" (by decide) (by decide)⟩

/-- Claim C7: when the archive is unreadable or the member `word/document.xml` is
missing, placeholder extraction returns the empty result; the embedding is total,
so no exception passes the boundary. -/
theorem C7_extraction_failure_yields_empty :
    extract_placeholders_from_docx none = [] ∧
    (∀ members : List (String × String),
        (∀ p ∈ members, p.1 ≠ "word/document.xml") →
        extract_placeholders_from_docx (some members) = []) := by
  refine ⟨rfl, fun members h => ?_⟩
  have hfind : members.find? (fun p => p.1 = "word/document.xml") = none := by
    rw [List.find?_eq_none]
    intro p hp
    simpa using h p hp
  unfold extract_placeholders_from_docx readDocumentXml
  simp [hfind]

/-- Witness for C7 at an archive that holds only `word/styles.xml`. -/
theorem C7_extraction_failure_yields_empty_witness :
    (∀ p ∈ [("word/styles.xml", "<w/>")], p.1 ≠ "word/document.xml") ∧
    extract_placeholders_from_docx (some [("word/styles.xml", "<w/>")]) = [] :=
  ⟨by decide, C7_extraction_failure_yields_empty.2 [("word/styles.xml", "<w/>")] (by decide)⟩

/-- Counterexample to claim C9 as stated: when opening/extracting the original
archive raises (first conjunct) or when repacking the new archive raises (second
conjunct), `sanitize_template_xml` does not discard its scratch directory — the
exception propagates before any `shutil.rmtree` call runs. -/
theorem C9_scratch_leak_counterexample :
    (sanitize_template_run
        { openArchiveOk := false, readDocOk := true, writeDocOk := true, repackOk := true }
      = { result := .raised, scratchRemoved := false }) ∧
    (sanitize_template_run
        { openArchiveOk := true, readDocOk := true, writeDocOk := true, repackOk := false }
      = { result := .raised, scratchRemoved := false }) := by
  decide

/-- Claim C9, amended: `sanitize_template_xml` discards its scratch directory on
success and on the two handled failures (reading or writing the internal
`word/document.xml` payload), but not when opening/extracting the original archive
raises or when repacking the new archive raises — exactly the runs where
`openArchiveOk` is false, or it is true and everything up to repacking succeeded
while repacking failed. -/
theorem C9_scratch_cleanup_characterization (e : RewriterEnv) :
    (sanitize_template_run e).scratchRemoved =
      (e.openArchiveOk && (!e.readDocOk || !e.writeDocOk || e.repackOk)) := by
  obtain ⟨o, r, w, k⟩ := e
  cases o <;> cases r <;> cases w <;> cases k <;> rfl

/-- Claim C6 at its failing input (a code bug): the template placeholder
`"Client Company Name"` is absent from the submitted form, so `raw_values` and
`context` hold a `None` for it (the first two conjuncts — the claim's "empty/absent
value" part holds), but filename derivation then evaluates `None.strip()` and
raises an uncaught `AttributeError` (the third conjunct), contradicting the
claim's "does not fail" part. -/
theorem C6_missing_input_reaches_none_strip :
    (build_request_data ["Client Company Name"] []).2.1 = [("Client Company Name", none)] ∧
    dictLookup (build_request_data ["Client Company Name"] []).2.2 "Client_Company_Name"
      = some none ∧
    get_value_case_insensitive_opt (build_request_data ["Client Company Name"] []).2.1
      "Client Company Name" "UnknownClient" = .error () :=
  ⟨by decide, by decide, rfl⟩

theorem dictLookup_dictInsert_self {α : Type} (d : List (String × α)) (k : String) (v : α) :
    dictLookup (dictInsert d k v) k = some v := by
  induction d with
  | nil => simp [dictInsert, dictLookup]
  | cons p rest ih =>
    obtain ⟨k0, v0⟩ := p
    by_cases h : k0 = k
    · simp [dictInsert, dictLookup, h]
    · simp [dictInsert, dictLookup, h, ih]

theorem dictLookup_dictInsert_ne {α : Type} (d : List (String × α)) (k k' : String) (v : α)
    (h : k' ≠ k) : dictLookup (dictInsert d k v) k' = dictLookup d k' := by
  have h' : ¬k = k' := fun hh => h hh.symm
  induction d with
  | nil => simp [dictInsert, dictLookup, h']
  | cons p rest ih =>
    obtain ⟨k0, v0⟩ := p
    by_cases h0 : k0 = k
    · subst h0
      simp [dictInsert, dictLookup, h']
    · simp [dictInsert, dictLookup, h0, ih]

theorem mem_insertSorted {a s : String} :
    ∀ {l : List String}, a ∈ insertSorted s l ↔ a = s ∨ a ∈ l := by
  intro l
  induction l with
  | nil => simp [insertSorted]
  | cons t rest ih =>
    by_cases h : strLtb t s = true
    · simp only [insertSorted, if_pos h, List.mem_cons, ih]
      tauto
    · simp only [insertSorted, if_neg h, List.mem_cons]

theorem mem_sortStrings {a : String} :
    ∀ {l : List String}, a ∈ sortStrings l ↔ a ∈ l := by
  intro l
  induction l with
  | nil => simp [sortStrings]
  | cons s rest ih =>
    simp only [sortStrings, mem_insertSorted, List.mem_cons, ih]

theorem build_foldl_context_lookup_none (form : List (String × String)) (key : String) :
    ∀ (phs : List String)
      (acc : List (String × String) × List (String × Option String) ×
        List (String × Option String)),
      (∀ ph ∈ phs, ph ∉ EXCLUDED_PLACEHOLDERS → sanitize_placeholder ph ≠ key) →
      dictLookup acc.2.2 key = none →
      dictLookup (phs.foldl (build_step form) acc).2.2 key = none := by
  intro phs
  induction phs with
  | nil => intro acc _ hacc; exact hacc
  | cons ph rest ih =>
    intro acc hall hacc
    rw [List.foldl_cons]
    apply ih _ (fun q hq => hall q (List.mem_cons_of_mem _ hq))
    by_cases hex : ph ∈ EXCLUDED_PLACEHOLDERS
    · simp only [build_step, if_pos hex]
      exact hacc
    · have hne : sanitize_placeholder ph ≠ key := hall ph (List.mem_cons_self ..) hex
      simp only [build_step, if_neg hex]
      rw [dictLookup_dictInsert_ne _ _ _ _ (fun hh => hne hh.symm)]
      exact hacc

/-- Counterexample to claim C8 as stated: with no salesperson selected, the key
`Salesperson_Name` is nevertheless present in the render context when the template
holds the non-excluded placeholder `"Salesperson Name"` (with a space), because its
sanitized key is exactly `Salesperson_Name`. -/
theorem C8_collision_counterexample :
    dictLookup
      (inject_salesperson (build_request_data ["Salesperson Name"] []).2.2 none [])
      "Salesperson_Name" = some none := by
  decide

/-- Claim C8, amended: every placeholder of the exclusion set is omitted from the
manual-entry list of every extracted placeholder list (concretely, extracting
`Client Company Name` and `Salesperson_Name` leaves only `Client Company Name`);
when a selected name matches an auxiliary record, its fields are assigned into the
context under the exact literal keys `Salesperson_Name` / `Salesperson_Email` /
`Salesperson_Phone` without sanitization; and when no record is selected those
keys are absent from the context, provided no non-excluded placeholder of the
template sanitizes to that key. -/
theorem C8_exclusion_and_injection :
    (∀ (placeholders : List String) (key : String),
        key ∈ EXCLUDED_PLACEHOLDERS → key ∉ manual_entry_list placeholders) ∧
    manual_entry_list ["Client Company Name", "Salesperson_Name"] = ["Client Company Name"] ∧
    (∀ (context : List (String × Option String)) (salespeople : List Salesperson)
        (sel : String) (sp : Salesperson),
        sel ≠ "" → find_salesperson salespeople sel = some sp →
        dictLookup (inject_salesperson context (some sel) salespeople) "Salesperson_Name"
            = some (some sp.name) ∧
        dictLookup (inject_salesperson context (some sel) salespeople) "Salesperson_Email"
            = some (some sp.email) ∧
        dictLookup (inject_salesperson context (some sel) salespeople) "Salesperson_Phone"
            = some (some sp.phone)) ∧
    (∀ (placeholders : List String) (form : List (String × String))
        (salespeople : List Salesperson) (key : String),
        key ∈ EXCLUDED_PLACEHOLDERS →
        (∀ ph ∈ placeholders, ph ∉ EXCLUDED_PLACEHOLDERS → sanitize_placeholder ph ≠ key) →
        dictLookup
          (inject_salesperson (build_request_data placeholders form).2.2 none salespeople)
          key = none) := by
  refine ⟨?_, by decide, ?_, ?_⟩
  · intro placeholders key hkey hmem
    simp only [manual_entry_list] at hmem
    have hp := (List.mem_filter.mp hmem).2
    rw [decide_eq_true_eq] at hp
    exact hp hkey
  · intro context salespeople sel sp hsel hfind
    simp only [inject_salesperson, if_neg hsel, hfind]
    refine ⟨?_, ?_, ?_⟩
    · rw [dictLookup_dictInsert_ne _ _ _ _ (by decide),
        dictLookup_dictInsert_ne _ _ _ _ (by decide), dictLookup_dictInsert_self]
    · rw [dictLookup_dictInsert_ne _ _ _ _ (by decide), dictLookup_dictInsert_self]
    · rw [dictLookup_dictInsert_self]
  · intro placeholders form salespeople key _hkey hall
    simp only [inject_salesperson]
    apply build_foldl_context_lookup_none
    · intro ph hph
      exact hall ph (mem_sortStrings.mp hph)
    · rfl

/-- Witness for C8: the omission conjunct at the excluded key `Salesperson_Email`
over a list holding two excluded placeholders, the injection conjunct at the
record `Jo` selected as `" jo "`, and the absence conjunct for key
`Salesperson_Name` on a template whose only placeholder is `Client Company Name`
with an empty form. -/
theorem C8_exclusion_and_injection_witness :
    ("Salesperson_Email" : String) ∈ EXCLUDED_PLACEHOLDERS ∧
    ("Salesperson_Email" : String) ∉
      manual_entry_list ["Salesperson_Email", "Salesperson_Phone", "Client Company Name"] ∧
    (" jo " : String) ≠ "" ∧
    find_salesperson [⟨"Jo", "jo@x.com", "555"⟩] " jo " = some ⟨"Jo", "jo@x.com", "555"⟩ ∧
    dictLookup (inject_salesperson [] (some " jo ") [⟨"Jo", "jo@x.com", "555"⟩])
      "Salesperson_Name" = some (some "Jo") ∧
    dictLookup
      (inject_salesperson (build_request_data ["Client Company Name"] []).2.2 none [])
      "Salesperson_Name" = none :=
  ⟨by decide,
    C8_exclusion_and_injection.1
      ["Salesperson_Email", "Salesperson_Phone", "Client Company Name"]
      "Salesperson_Email" (by decide),
    by decide, by decide,
    (C8_exclusion_and_injection.2.2.1 [] [⟨"Jo", "jo@x.com", "555"⟩] " jo "
      ⟨"Jo", "jo@x.com", "555"⟩ (by decide) (by decide)).1,
    C8_exclusion_and_injection.2.2.2 ["Client Company Name"] [] [] "Salesperson_Name"
      (by decide) (by decide)⟩

theorem splitClose_append (i a : List Char) (h : ∀ c ∈ i, c ≠ '\x7d') :
    splitClose (i ++ '\x7d' :: '\x7d' :: a) = some (i, a) := by
  induction i with
  | nil =>
    show splitClose ('\x7d' :: '\x7d' :: a) = some ([], a)
    rw [splitClose, if_pos ⟨rfl, rfl⟩]
    rfl
  | cons c rest ih =>
    have hc : c ≠ '\x7d' := h c (List.mem_cons_self ..)
    show splitClose (c :: (rest ++ '\x7d' :: '\x7d' :: a)) = _
    rw [splitClose, if_neg (fun hcon => hc hcon.1),
      ih (fun x hx => h x (List.mem_cons_of_mem _ hx))]
    rfl

theorem splitClose_some_nil_head {l a : List Char} (h : splitClose l = some ([], a)) :
    l.head? = some '\x7d' := by
  cases l with
  | nil => simp [splitClose] at h
  | cons c rest =>
    by_cases hc : c = '\x7d' ∧ rest.head? = some '\x7d'
    · simp [hc.1]
    · rw [splitClose, if_neg hc] at h
      cases hsc : splitClose rest with
      | none => rw [hsc] at h; simp at h
      | some p => rw [hsc] at h; simp at h

theorem splitClose_inner_head {l : List Char} {c2 : Char} {t a : List Char}
    (h : splitClose l = some (c2 :: t, a)) : l.head? = some c2 := by
  cases l with
  | nil => simp [splitClose] at h
  | cons c rest =>
    by_cases hc : c = '\x7d' ∧ rest.head? = some '\x7d'
    · rw [splitClose, if_pos hc] at h
      simp at h
    · rw [splitClose, if_neg hc] at h
      cases hsc : splitClose rest with
      | none => rw [hsc] at h; simp at h
      | some p =>
        rw [hsc] at h
        simp at h
        simp [h.1.1]

theorem splitClose_recover :
    ∀ {l i a : List Char}, splitClose l = some (i, a) →
      ∀ b, splitClose (i ++ '\x7d' :: '\x7d' :: b) = some (i, b) := by
  intro l
  induction l with
  | nil => intro i a h; simp [splitClose] at h
  | cons c rest ih =>
    intro i a h b
    by_cases hc : c = '\x7d' ∧ rest.head? = some '\x7d'
    · rw [splitClose, if_pos hc] at h
      have h2 := Option.some.inj h
      have hi : ([] : List Char) = i := congrArg Prod.fst h2
      rw [← hi]
      show splitClose ('\x7d' :: '\x7d' :: b) = some ([], b)
      rw [splitClose, if_pos ⟨rfl, rfl⟩]
      rfl
    · rw [splitClose, if_neg hc] at h
      cases hsc : splitClose rest with
      | none => rw [hsc] at h; simp at h
      | some p =>
        obtain ⟨i', a'⟩ := p
        rw [hsc] at h
        simp at h
        obtain ⟨h1, h2⟩ := h
        subst h2
        rw [← h1]
        show splitClose (c :: (i' ++ '\x7d' :: '\x7d' :: b)) = _
        have hcond : ¬(c = '\x7d' ∧ (i' ++ '\x7d' :: '\x7d' :: b).head? = some '\x7d') := by
          rintro ⟨rfl, hhd⟩
          cases i' with
          | nil => exact hc ⟨rfl, splitClose_some_nil_head hsc⟩
          | cons c2 t =>
            have hhead := splitClose_inner_head hsc
            simp at hhd
            rw [← hhd] at hc
            exact hc ⟨rfl, hhead⟩
        rw [splitClose, if_neg hcond, ih hsc b]
        rfl

theorem findRaw_cons_cons_not {c1 c2 : Char} (t : List Char)
    (h : ¬(c1 = '\x7b' ∧ c2 = '\x7b')) :
    findRaw (c1 :: c2 :: t) = findRaw (c2 :: t) := by
  rw [findRaw, if_neg h]

theorem findRaw_open_some {t i a : List Char} (h : splitClose t = some (i, a)) :
    findRaw ('\x7b' :: '\x7b' :: t) = i :: findRaw a := by
  rw [findRaw, if_pos ⟨rfl, rfl⟩]
  split
  · rename_i p hp
    have hpe : (i, a) = p := by
      rw [h] at hp
      exact Option.some.inj hp
    rw [← hpe]
  · rename_i hp
    rw [h] at hp
    exact absurd hp (by simp)

theorem findRaw_open_none {t : List Char} (h : splitClose t = none) :
    findRaw ('\x7b' :: '\x7b' :: t) = [] := by
  rw [findRaw, if_pos ⟨rfl, rfl⟩]
  split
  · rename_i p hp
    rw [h] at hp
    exact absurd hp (by simp)
  · rfl

theorem findRaw_cons_not_open {c : Char} (hc : c ≠ '\x7b') (l : List Char) :
    findRaw (c :: l) = findRaw l := by
  cases l with
  | nil => simp [findRaw]
  | cons c2 t => exact findRaw_cons_cons_not t (fun hcon => hc hcon.1)

theorem findRaw_append_not_open (t : List Char) (ht : ∀ c ∈ t, c ≠ '\x7b')
    (l : List Char) : findRaw (t ++ l) = findRaw l := by
  induction t with
  | nil => rfl
  | cons c rest ih =>
    rw [List.cons_append, findRaw_cons_not_open (ht c (List.mem_cons_self ..))]
    exact ih (fun x hx => ht x (List.mem_cons_of_mem _ hx))

theorem findRaw_eq_nil_not_open (t : List Char) (ht : ∀ c ∈ t, c ≠ '\x7b') :
    findRaw t = [] := by
  have := findRaw_append_not_open t ht []
  rw [List.append_nil] at this
  rw [this]
  simp [findRaw]

theorem rewriteChars_cons_cons_not (m : List (List Char × List Char)) {c1 c2 : Char}
    (t : List Char) (h : ¬(c1 = '\x7b' ∧ c2 = '\x7b')) :
    rewriteChars m (c1 :: c2 :: t) = c1 :: rewriteChars m (c2 :: t) := by
  rw [rewriteChars, if_neg h]

theorem rewriteChars_open_found {m : List (List Char × List Char)} {t i a v : List Char}
    (h : splitClose t = some (i, a)) (hv : lookupMapping m (cleanToken i) = some v) :
    rewriteChars m ('\x7b' :: '\x7b' :: t) =
      '\x7b' :: '\x7b' :: (v ++ '\x7d' :: '\x7d' :: rewriteChars m a) := by
  rw [rewriteChars, if_pos ⟨rfl, rfl⟩]
  split
  · rename_i p hp
    have hpe : (i, a) = p := by
      rw [h] at hp
      exact Option.some.inj hp
    rw [← hpe, hv]
  · rename_i hp
    rw [h] at hp
    exact absurd hp (by simp)

theorem rewriteChars_open_notfound {m : List (List Char × List Char)} {t i a : List Char}
    (h : splitClose t = some (i, a)) (hv : lookupMapping m (cleanToken i) = none) :
    rewriteChars m ('\x7b' :: '\x7b' :: t) =
      '\x7b' :: '\x7b' :: (i ++ '\x7d' :: '\x7d' :: rewriteChars m a) := by
  rw [rewriteChars, if_pos ⟨rfl, rfl⟩]
  split
  · rename_i p hp
    have hpe : (i, a) = p := by
      rw [h] at hp
      exact Option.some.inj hp
    rw [← hpe, hv]
  · rename_i hp
    rw [h] at hp
    exact absurd hp (by simp)

theorem rewriteChars_open_none (m : List (List Char × List Char)) {t : List Char}
    (h : splitClose t = none) :
    rewriteChars m ('\x7b' :: '\x7b' :: t) = '\x7b' :: '\x7b' :: t := by
  rw [rewriteChars, if_pos ⟨rfl, rfl⟩]
  split
  · rename_i p hp
    rw [h] at hp
    exact absurd hp (by simp)
  · rfl

theorem rewriteChars_cons_not_open (m : List (List Char × List Char)) {c : Char}
    (hc : c ≠ '\x7b') (l : List Char) :
    rewriteChars m (c :: l) = c :: rewriteChars m l := by
  cases l with
  | nil => simp [rewriteChars]
  | cons c2 t => exact rewriteChars_cons_cons_not m t (fun hcon => hc hcon.1)

theorem rewriteChars_append_not_open (m : List (List Char × List Char)) (t : List Char)
    (ht : ∀ c ∈ t, c ≠ '\x7b') (l : List Char) :
    rewriteChars m (t ++ l) = t ++ rewriteChars m l := by
  induction t with
  | nil => rfl
  | cons c rest ih =>
    rw [List.cons_append, rewriteChars_cons_not_open m (ht c (List.mem_cons_self ..)),
      ih (fun x hx => ht x (List.mem_cons_of_mem _ hx))]
    rfl

theorem rewriteChars_id_not_open (m : List (List Char × List Char)) (t : List Char)
    (ht : ∀ c ∈ t, c ≠ '\x7b') : rewriteChars m t = t := by
  have := rewriteChars_append_not_open m t ht []
  rw [List.append_nil] at this
  rw [this]
  simp [rewriteChars]

theorem rewriteChars_head? (m : List (List Char × List Char)) (l : List Char) :
    (rewriteChars m l).head? = l.head? := by
  match l with
  | [] => simp [rewriteChars]
  | [c] => simp [rewriteChars]
  | c1 :: c2 :: rest =>
    by_cases h : c1 = '\x7b' ∧ c2 = '\x7b'
    · obtain ⟨rfl, rfl⟩ := h
      cases hsc : splitClose rest with
      | none => rw [rewriteChars_open_none m hsc]
      | some p =>
        obtain ⟨i, a⟩ := p
        cases hv : lookupMapping m (cleanToken i) with
        | none => rw [rewriteChars_open_notfound hsc hv]; rfl
        | some v => rw [rewriteChars_open_found hsc hv]; rfl
    · rw [rewriteChars_cons_cons_not m rest h]; rfl

theorem stripTags_cons_not_lt {c : Char} (hc : c ≠ '<') (l : List Char) :
    stripTags (c :: l) = c :: stripTags l := by
  rw [stripTags, if_neg hc]

theorem stripTags_id_not_lt (l : List Char) (h : ∀ c ∈ l, c ≠ '<') :
    stripTags l = l := by
  induction l with
  | nil => simp [stripTags]
  | cons c rest ih =>
    rw [stripTags_cons_not_lt (h c (List.mem_cons_self ..)),
      ih (fun x hx => h x (List.mem_cons_of_mem _ hx))]

theorem wordChar_ne (c : Char) (h : isWordChar c = true) :
    c ≠ '\x7b' ∧ c ≠ '\x7d' ∧ c ≠ '<' ∧ pyIsSpace c = false := by
  refine ⟨?_, ?_, ?_, ?_⟩
  · rintro rfl; exact absurd h (by decide)
  · rintro rfl; exact absurd h (by decide)
  · rintro rfl; exact absurd h (by decide)
  · cases hsp : pyIsSpace c with
    | false => rfl
    | true =>
      exfalso
      have hor : c = ' ' ∨ c = '\t' ∨ c = '\n' ∨ c = '\r' ∨ c = '\x0b' ∨ c = '\x0c' := by
        simpa [pyIsSpace, or_assoc] using hsp
      rcases hor with rfl | rfl | rfl | rfl | rfl | rfl <;> exact absurd h (by decide)

theorem pyStrip_id (l : List Char) (h : ∀ c ∈ l, pyIsSpace c = false) :
    pyStrip l = l := by
  unfold pyStrip
  rw [dropWhile_eq_self_of_head (fun c hc => h c (List.mem_of_mem_head? hc)),
    dropWhile_eq_self_of_head (fun c hc =>
      h c (List.mem_reverse.mp (List.mem_of_mem_head? hc))),
    List.reverse_reverse]

theorem cleanToken_word (l : List Char) (h : ∀ c ∈ l, isWordChar c = true) :
    cleanToken l = l := by
  unfold cleanToken
  rw [stripTags_id_not_lt l (fun c hc => (wordChar_ne c (h c hc)).2.2.1),
    pyStrip_id l (fun c hc => (wordChar_ne c (h c hc)).2.2.2)]

theorem braceFree_spec {s : String} (h : braceFree s = true) :
    ∀ c ∈ s.data, c ≠ '\x7b' ∧ c ≠ '\x7d' := by
  intro c hc
  have := List.all_eq_true.mp h c hc
  simp at this
  exact this

theorem wordOnly_spec {s : String} (h : wordOnly s = true) :
    ∀ c ∈ s.data, isWordChar c = true := by
  intro c hc
  exact List.all_eq_true.mp h c hc

theorem mk_eq_mk_iff {l l' : List Char} : String.mk l = String.mk l' ↔ l = l' :=
  ⟨fun h => congrArg String.data h, fun h => by rw [h]⟩

theorem mk_eq_empty_iff {l : List Char} : String.mk l = "" ↔ l = [] :=
  ⟨fun h => congrArg String.data h, fun h => by rw [h]⟩

theorem lookupMapping_mem {m : List (List Char × List Char)} {k v : List Char}
    (h : lookupMapping m k = some v) : ∃ p ∈ m, p.2 = v := by
  induction m with
  | nil => simp [lookupMapping] at h
  | cons q rest ih =>
    obtain ⟨qk, qv⟩ := q
    by_cases hq : qk = k
    · rw [lookupMapping, if_pos hq] at h
      exact ⟨(qk, qv), List.mem_cons_self .., Option.some.inj h⟩
    · rw [lookupMapping, if_neg hq] at h
      obtain ⟨p, hp, hv⟩ := ih h
      exact ⟨p, List.mem_cons_of_mem _ hp, hv⟩

theorem mem_extract_iff (xml x : String) :
    x ∈ extract_placeholders_from_xml xml ↔
      ∃ i ∈ findRaw xml.data, cleanToken i ≠ [] ∧ String.mk (cleanToken i) = x := by
  unfold extract_placeholders_from_xml
  rw [List.mem_dedup]
  constructor
  · intro hx
    obtain ⟨l, hl, hmk⟩ := List.mem_map.mp hx
    obtain ⟨hl2, hne⟩ := List.mem_filter.mp hl
    obtain ⟨i, hi, hcl⟩ := List.mem_map.mp hl2
    exact ⟨i, hi, by rw [hcl]; simpa using hne, by rw [hcl]; exact hmk⟩
  · rintro ⟨i, hi, hne, hmk⟩
    apply List.mem_map.mpr
    refine ⟨cleanToken i, List.mem_filter.mpr ⟨List.mem_map.mpr ⟨i, hi, rfl⟩, by simpa using hne⟩, hmk⟩

theorem findRaw_rewriteChars_bounded (m : List (List Char × List Char))
    (hm : ∀ p ∈ m, ∀ c ∈ p.2, c ≠ '\x7d') :
    ∀ (n : Nat) (l : List Char), l.length ≤ n →
      findRaw (rewriteChars m l) =
        (findRaw l).map (fun i => (lookupMapping m (cleanToken i)).getD i) := by
  intro n
  induction n with
  | zero =>
    intro l hl
    have hnil : l = [] := List.length_eq_zero.mp (Nat.le_zero.mp hl)
    subst hnil
    simp [rewriteChars, findRaw]
  | succ n ih =>
    intro l hl
    cases l with
    | nil => simp [rewriteChars, findRaw]
    | cons c1 l1 =>
      cases l1 with
      | nil => simp [rewriteChars, findRaw]
      | cons c2 rest =>
        by_cases h : c1 = '\x7b' ∧ c2 = '\x7b'
        · obtain ⟨rfl, rfl⟩ := h
          cases hsc : splitClose rest with
          | none =>
            rw [rewriteChars_open_none m hsc, findRaw_open_none hsc]
            rfl
          | some p =>
            obtain ⟨i, a⟩ := p
            have hlen := splitClose_length rest i a hsc
            simp only [List.length_cons] at hl
            have hIH := ih a (by omega)
            cases hv : lookupMapping m (cleanToken i) with
            | some v =>
              have hvfree : ∀ c ∈ v, c ≠ '\x7d' := by
                obtain ⟨q, hq, hqv⟩ := lookupMapping_mem hv
                intro c hc
                exact hm q hq c (hqv ▸ hc)
              rw [rewriteChars_open_found hsc hv,
                findRaw_open_some (splitClose_append v _ hvfree),
                findRaw_open_some hsc, List.map_cons, hv, hIH]
              rfl
            | none =>
              rw [rewriteChars_open_notfound hsc hv,
                findRaw_open_some (splitClose_recover hsc _),
                findRaw_open_some hsc, List.map_cons, hv, hIH]
              rfl
        · rw [rewriteChars_cons_cons_not m rest h]
          have hhead : (rewriteChars m (c2 :: rest)).head? = some c2 :=
            rewriteChars_head? m (c2 :: rest)
          obtain ⟨X, hX⟩ : ∃ X, rewriteChars m (c2 :: rest) = c2 :: X := by
            cases hrw : rewriteChars m (c2 :: rest) with
            | nil => rw [hrw] at hhead; simp at hhead
            | cons d t =>
              rw [hrw] at hhead
              simp at hhead
              exact ⟨t, by rw [hhead]⟩
          rw [hX, findRaw_cons_cons_not X h, ← hX, findRaw_cons_cons_not rest h]
          simp only [List.length_cons] at hl
          exact ih (c2 :: rest) (by simp; omega)

theorem findRaw_rewriteChars (m : List (List Char × List Char))
    (hm : ∀ p ∈ m, ∀ c ∈ p.2, c ≠ '\x7d') (l : List Char) :
    findRaw (rewriteChars m l) =
      (findRaw l).map (fun i => (lookupMapping m (cleanToken i)).getD i) :=
  findRaw_rewriteChars_bounded m hm l.length l (Nat.le_refl _)

theorem findRaw_renderSegsL :
    ∀ (ps : List (List Char × List Char)) (t0 : List Char),
      (∀ c ∈ t0, c ≠ '\x7b') →
      (∀ p ∈ ps, (∀ c ∈ p.1, c ≠ '\x7d') ∧ (∀ c ∈ p.2, c ≠ '\x7b')) →
      findRaw (renderSegsL t0 ps) = ps.map (fun p => p.1) := by
  intro ps
  induction ps with
  | nil => intro t0 ht0 _; exact findRaw_eq_nil_not_open t0 ht0
  | cons p rest ih =>
    intro t0 ht0 hps
    obtain ⟨i, t⟩ := p
    show findRaw (t0 ++ '\x7b' :: '\x7b' :: (i ++ '\x7d' :: '\x7d' :: renderSegsL t rest)) = _
    rw [findRaw_append_not_open t0 ht0,
      findRaw_open_some (splitClose_append i _ (hps (i, t) (List.mem_cons_self ..)).1),
      ih t (hps (i, t) (List.mem_cons_self ..)).2
        (fun q hq => hps q (List.mem_cons_of_mem _ hq))]
    rfl

theorem rewriteChars_renderSegsL (m : List (List Char × List Char)) :
    ∀ (ps : List (List Char × List Char)) (t0 : List Char),
      (∀ c ∈ t0, c ≠ '\x7b') →
      (∀ p ∈ ps, (∀ c ∈ p.1, c ≠ '\x7d') ∧ (∀ c ∈ p.2, c ≠ '\x7b')) →
      rewriteChars m (renderSegsL t0 ps) =
        renderSegsL t0
          (ps.map (fun p => ((lookupMapping m (cleanToken p.1)).getD p.1, p.2))) := by
  intro ps
  induction ps with
  | nil => intro t0 ht0 _; exact rewriteChars_id_not_open m t0 ht0
  | cons p rest ih =>
    intro t0 ht0 hps
    obtain ⟨i, t⟩ := p
    have hi : ∀ c ∈ i, c ≠ '\x7d' := (hps (i, t) (List.mem_cons_self ..)).1
    have ht : ∀ c ∈ t, c ≠ '\x7b' := (hps (i, t) (List.mem_cons_self ..)).2
    have hrest : ∀ q ∈ rest, (∀ c ∈ q.1, c ≠ '\x7d') ∧ (∀ c ∈ q.2, c ≠ '\x7b') :=
      fun q hq => hps q (List.mem_cons_of_mem _ hq)
    show rewriteChars m
        (t0 ++ '\x7b' :: '\x7b' :: (i ++ '\x7d' :: '\x7d' :: renderSegsL t rest)) = _
    rw [rewriteChars_append_not_open m t0 ht0]
    cases hv : lookupMapping m (cleanToken i) with
    | some v =>
      rw [rewriteChars_open_found (splitClose_append i _ hi) hv, ih t ht hrest]
      simp [renderSegsL, hv]
    | none =>
      rw [rewriteChars_open_notfound (splitClose_append i _ hi) hv, ih t ht hrest]
      simp [renderSegsL, hv]

/-- Claim C1: for every payload whose placeholder pairs are balanced with no nested
braces — presented as brace-free literal segments interleaved with brace-free
occurrence inners — `extract_placeholders_from_xml` returns exactly the set of
distinct inner tokens with embedded tags removed and whitespace trimmed, empty
results discarded.  The inners are arbitrary brace-free strings, so a pair whose
span contains a newline is matched like any other (the witness instantiates one). -/
theorem C1_extractor_balanced (t0 : String) (ps : List (String × String))
    (ht0 : braceFree t0 = true)
    (hps : ∀ p ∈ ps, braceFree p.1 = true ∧ braceFree p.2 = true) :
    (extract_placeholders_from_xml (renderSegs t0 ps)).toFinset =
      ((ps.map (fun p => cleanStr p.1)).filter (fun s => s ≠ "")).toFinset := by
  have ht0' : ∀ c ∈ t0.data, c ≠ '\x7b' := fun c hc => (braceFree_spec ht0 c hc).1
  have hps' : ∀ q ∈ ps.map (fun p => (p.1.data, p.2.data)),
      (∀ c ∈ q.1, c ≠ '\x7d') ∧ (∀ c ∈ q.2, c ≠ '\x7b') := by
    intro q hq
    obtain ⟨p, hp, rfl⟩ := List.mem_map.mp hq
    exact ⟨fun c hc => (braceFree_spec (hps p hp).1 c hc).2,
      fun c hc => (braceFree_spec (hps p hp).2 c hc).1⟩
  apply List.toFinset.ext_iff.mpr
  intro x
  rw [mem_extract_iff]
  have hdata : (renderSegs t0 ps).data
      = renderSegsL t0.data (ps.map (fun p => (p.1.data, p.2.data))) := rfl
  rw [hdata, findRaw_renderSegsL _ _ ht0' hps', List.map_map]
  constructor
  · rintro ⟨i, hi, hne, rfl⟩
    obtain ⟨p, hp, rfl⟩ := List.mem_map.mp hi
    apply List.mem_filter.mpr
    refine ⟨List.mem_map.mpr ⟨p, hp, rfl⟩, ?_⟩
    simpa [cleanStr, mk_eq_empty_iff] using hne
  · intro hx
    obtain ⟨hx1, hne⟩ := List.mem_filter.mp hx
    obtain ⟨p, hp, rfl⟩ := List.mem_map.mp hx1
    refine ⟨p.1.data, List.mem_map.mpr ⟨p, hp, rfl⟩, ?_, rfl⟩
    simpa [cleanStr, mk_eq_empty_iff] using hne

/-- Witness for C1: one inner containing a newline and an embedded tag, one inner
that cleans to empty (discarded), surrounded by tag-bearing literal segments. -/
theorem C1_extractor_balanced_witness :
    braceFree "<w:p>" = true ∧
    (∀ p ∈ [("Client\n<w:b/>Name", "</w:p><w:p>"), (" ", "")],
        braceFree p.1 = true ∧ braceFree p.2 = true) ∧
    (extract_placeholders_from_xml
        (renderSegs "<w:p>" [("Client\n<w:b/>Name", "</w:p><w:p>"), (" ", "")])).toFinset =
      (([("Client\n<w:b/>Name", "</w:p><w:p>"), (" ", "")].map
          (fun p => cleanStr p.1)).filter (fun s => s ≠ "")).toFinset :=
  ⟨by decide, by decide,
    C1_extractor_balanced "<w:p>" [("Client\n<w:b/>Name", "</w:p><w:p>"), (" ", "")]
      (by decide) (by decide)⟩

/-- Claim C2: for a mapping sending `A` to the sanitized identifier `a` (word
characters only, non-empty): (1) on any payload whose extracted placeholder set is
exactly the singleton containing `A` — so no other placeholder can collide with `a`
— rewriting and then extracting yields exactly the singleton containing `a`; (2) on
any balanced payload given by its segments, rewriting maps each occurrence whose
cleaned inner text equals `A` to a `a`-occurrence and leaves every other occurrence
byte-for-byte unchanged, with all content outside occurrences byte-identical. -/
theorem C2_rewrite_roundtrip (A a : String) (ha : wordOnly a = true) (hane : a ≠ "") :
    (∀ xml : String,
        (extract_placeholders_from_xml xml).toFinset = {A} →
        (extract_placeholders_from_xml (sanitize_xml_content [(A, a)] xml)).toFinset
          = {a}) ∧
    (∀ (t0 : String) (ps : List (String × String)),
        braceFree t0 = true →
        (∀ p ∈ ps, braceFree p.1 = true ∧ braceFree p.2 = true) →
        sanitize_xml_content [(A, a)] (renderSegs t0 ps) =
          renderSegs t0 (ps.map (fun p => (if cleanStr p.1 = A then a else p.1, p.2)))) := by
  have haw : ∀ c ∈ a.data, isWordChar c = true := wordOnly_spec ha
  have hm : ∀ p ∈ [(A.data, a.data)], ∀ c ∈ p.2, c ≠ '\x7d' := by
    intro p hp c hc
    simp only [List.mem_singleton] at hp
    subst hp
    exact (wordChar_ne c (haw c hc)).2.1
  have hclean_a : cleanToken a.data = a.data := cleanToken_word a.data haw
  have hane' : a.data ≠ [] := fun h =>
    hane (by rw [← show String.mk a.data = a from rfl, h])
  have hlookup : ∀ k : List Char,
      lookupMapping [(A.data, a.data)] k = if A.data = k then some a.data else none :=
    fun k => rfl
  constructor
  · intro xml h1
    have hmem1 : ∀ x : String, x ∈ extract_placeholders_from_xml xml ↔ x = A := by
      intro x
      rw [← List.mem_toFinset, h1, Finset.mem_singleton]
    apply Finset.ext
    intro x
    rw [List.mem_toFinset, Finset.mem_singleton]
    have hdata : (sanitize_xml_content [(A, a)] xml).data
        = rewriteChars [(A.data, a.data)] xml.data := rfl
    rw [mem_extract_iff, hdata, findRaw_rewriteChars _ hm xml.data]
    constructor
    · rintro ⟨j, hj, hne, rfl⟩
      obtain ⟨i, hi, rfl⟩ := List.mem_map.mp hj
      by_cases hiA : cleanToken i = A.data
      · rw [hlookup (cleanToken i), if_pos hiA.symm]
        simp only [Option.getD_some]
        rw [hclean_a]
      · have hempty : cleanToken i = [] := by
          by_contra hne2
          have hxA : String.mk (cleanToken i) = A :=
            (hmem1 _).mp ((mem_extract_iff xml _).mpr ⟨i, hi, hne2, rfl⟩)
          exact hiA (congrArg String.data hxA)
        rw [hlookup (cleanToken i), if_neg (fun hh => hiA hh.symm)] at hne
        simp only [Option.getD_none] at hne
        exact absurd hempty hne
    · intro hxa
      have hA : A ∈ extract_placeholders_from_xml xml := (hmem1 A).mpr rfl
      obtain ⟨i, hi, hne, hmk⟩ := (mem_extract_iff xml A).mp hA
      have hiA : cleanToken i = A.data := congrArg String.data hmk
      refine ⟨(lookupMapping [(A.data, a.data)] (cleanToken i)).getD i,
        List.mem_map.mpr ⟨i, hi, rfl⟩, ?_, ?_⟩
      · rw [hlookup (cleanToken i), if_pos hiA.symm]
        simp only [Option.getD_some]
        rw [hclean_a]
        exact hane'
      · rw [hlookup (cleanToken i), if_pos hiA.symm]
        simp only [Option.getD_some]
        rw [hclean_a]
        exact hxa.symm
  · intro t0 ps ht0 hps
    have ht0' : ∀ c ∈ t0.data, c ≠ '\x7b' := fun c hc => (braceFree_spec ht0 c hc).1
    have hps' : ∀ q ∈ ps.map (fun p => (p.1.data, p.2.data)),
        (∀ c ∈ q.1, c ≠ '\x7d') ∧ (∀ c ∈ q.2, c ≠ '\x7b') := by
      intro q hq
      obtain ⟨p, hp, rfl⟩ := List.mem_map.mp hq
      exact ⟨fun c hc => (braceFree_spec (hps p hp).1 c hc).2,
        fun c hc => (braceFree_spec (hps p hp).2 c hc).1⟩
    show String.mk (rewriteChars [(A.data, a.data)]
        (renderSegsL t0.data (ps.map (fun p => (p.1.data, p.2.data))))) = _
    rw [rewriteChars_renderSegsL _ _ _ ht0' hps']
    show _ = String.mk (renderSegsL t0.data
      ((ps.map (fun p => (if cleanStr p.1 = A then a else p.1, p.2))).map
        (fun p => (p.1.data, p.2.data))))
    apply congrArg
    apply congrArg
    rw [List.map_map, List.map_map]
    apply List.map_congr_left
    intro p _hp
    simp only [Function.comp]
    by_cases hc : cleanStr p.1 = A
    · have hAd : A.data = cleanToken p.1.data := (congrArg String.data hc).symm
      rw [hlookup (cleanToken p.1.data), if_pos hAd, if_pos hc]
      rfl
    · have hAd : A.data ≠ cleanToken p.1.data := by
        intro hh
        apply hc
        rw [show cleanStr p.1 = String.mk (cleanToken p.1.data) from rfl, ← hh]
      rw [hlookup (cleanToken p.1.data), if_neg hAd, if_neg hc]
      rfl

/-- Witness for C2: the mapping sends the cleaned placeholder `Client  Name` (as
extracted from the tag-interrupted occurrence) to the sanitized key `Client_Name`;
the rewrite conjunct is applied at a concrete one-occurrence payload. -/
theorem C2_rewrite_roundtrip_witness :
    wordOnly "Client_Name" = true ∧
    ("Client_Name" : String) ≠ "" ∧
    braceFree "<w:p>" = true ∧
    (∀ p ∈ [("Client <w:b/> Name", "</w:p>")],
        braceFree p.1 = true ∧ braceFree p.2 = true) ∧
    sanitize_xml_content [("Client  Name", "Client_Name")]
        (renderSegs "<w:p>" [("Client <w:b/> Name", "</w:p>")]) =
      renderSegs "<w:p>"
        ([("Client <w:b/> Name", "</w:p>")].map
          (fun p => (if cleanStr p.1 = "Client  Name" then "Client_Name" else p.1, p.2))) :=
  ⟨by decide, by decide, by decide, by decide,
    (C2_rewrite_roundtrip "Client  Name" "Client_Name" (by decide) (by decide)).2
      "<w:p>" [("Client <w:b/> Name", "</w:p>")] (by decide) (by decide)⟩
